import Mathlib

/-!
Verification development for the ai-mcp-toolkit repository.

Python strings are modelled as `List Char` (a Python `str` is a sequence of
code points and `len`, slicing and iteration act on those code points).
Fallible Python code (functions that `raise`) is modelled with `Except`,
stateful code by explicit state passing.  Every definition below is a
shallow embedding of a function of the repository, named after it.
-/

deriving instance DecidableEq for Except

namespace AIMCP

/-- Model of a Python `str`: the list of its code points. -/
abbrev Str := List Char

/-- Characters treated as whitespace by Python `str.split` / `str.strip` /
the regex class `\s` (ASCII range; the toolkit only manipulates such text). -/
def pySpace (c : Char) : Bool :=
  c = ' ' || c = '\t' || c = '\n' || c = '\r' || c = '\x0b' || c = '\x0c'

/-- Leading-whitespace removal, first half of Python `str.strip()`. -/
def stripStart (l : Str) : Str := l.dropWhile pySpace

/-- Trailing-whitespace removal, second half of Python `str.strip()`. -/
def stripEnd : Str → Str
  | [] => []
  | c :: cs =>
      match stripEnd cs with
      | [] => if pySpace c then [] else [c]
      | r => c :: r

/-- Python `text.strip()`. -/
def pyStrip (l : Str) : Str := stripEnd (stripStart l)

/-- Accumulator loop for Python `str.split()` (split on whitespace runs,
dropping empty pieces).  `cur` is the word being read, kept in order. -/
def wordsAux : Str → Str → List Str
  | [], cur => if cur = [] then [] else [cur]
  | c :: cs, cur =>
      if pySpace c then
        if cur = [] then wordsAux cs [] else cur :: wordsAux cs []
      else wordsAux cs (cur ++ [c])

/-- Python `text.split()` with no argument: whitespace-separated words. -/
def pyWords (l : Str) : List Str := wordsAux l []

/-- Tail part of `" ".join`: prepend a space before every later word. -/
def joinRest : List Str → Str
  | [] => []
  | w :: ws => ' ' :: (w ++ joinRest ws)

/-- Python `" ".join(words)`. -/
def joinWords : List Str → Str
  | [] => []
  | w :: ws => w ++ joinRest ws

/-- Embedding of `BaseAgent.validate_text_input` (base_agent.py:29-41):
reject a string that is empty after stripping, then reject a string whose
(unstripped) length exceeds `max_len`; on success return the stripped text.
A raised `ValueError` becomes an `Except.error` carrying the message. -/
def validate_text_input (maxLen : Nat) (text : Str) : Except Str Str :=
  if pyStrip text = [] then
    Except.error ("Input text cannot be empty".data)
  else if text.length > maxLen then
    Except.error ("Text too long".data)
  else
    Except.ok (pyStrip text)

/-- Loop body of `BaseAgent.chunk_text` (base_agent.py:55-67): fold over the
words, greedily packing them into chunks; `cur` is `current_chunk` (in
order) and `len` is `current_length`. -/
def chunkLoop (chunkSize : Nat) : List Str → List Str → Nat → List Str
  | [], cur, _ => if cur = [] then [] else [joinWords cur]
  | w :: ws, cur, len =>
      if len + (w.length + 1) > chunkSize ∧ cur ≠ [] then
        joinWords cur :: chunkLoop chunkSize ws [w] w.length
      else
        chunkLoop chunkSize ws (cur ++ [w]) (len + (w.length + 1))

/-- Embedding of `BaseAgent.chunk_text` (base_agent.py:43-69): a text no
longer than `chunkSize` is returned whole; otherwise it is split into
space-joined groups of its whitespace-separated words. -/
def chunk_text (chunkSize : Nat) (text : Str) : List Str :=
  if text.length ≤ chunkSize then [text]
  else chunkLoop chunkSize (pyWords text) [] 0


/-- Tail part of `sep.join`: prepend the separator before every later piece. -/
def joinSepRest (sep : Str) : List Str → Str
  | [] => []
  | w :: ws => sep ++ w ++ joinSepRest sep ws

/-- Python `sep.join(pieces)`. -/
def joinSep (sep : Str) : List Str → Str
  | [] => []
  | w :: ws => w ++ joinSepRest sep ws

/-- The user prompt of the single-call branch of
`TextSummarizerAgent._summarize_text` (text_summarizer.py:218). -/
def singleSummaryPrompt (text : Str) : Str :=
  "Summarize this text:\n\n".data ++ text

/-- The per-chunk user prompt of `TextSummarizerAgent._summarize_text`
(text_summarizer.py:191), for chunk number `i` of `total` (1-based). -/
def chunkPrompt (i total : Nat) (chunk : Str) : Str :=
  "Summarize this text (part ".data ++ (Nat.repr i).data ++ " of ".data
    ++ (Nat.repr total).data ++ "):\n\n".data ++ chunk

/-- The `"Part {i+1}: {summary}"` labels built by
`TextSummarizerAgent._summarize_text` (text_summarizer.py:201), in order. -/
def partLabels : List Str → Nat → List Str
  | [], _ => []
  | s :: ss, i =>
      ("Part ".data ++ (Nat.repr (i + 1)).data ++ ": ".data ++ s)
        :: partLabels ss (i + 1)

/-- The combine prompt of `TextSummarizerAgent._summarize_text`
(text_summarizer.py:204): the labelled partial summaries joined by blank
lines, in chunk order. -/
def combinePrompt (lengthArg : Str) (summaries : List Str) : Str :=
  "Combine these partial summaries into one coherent ".data ++ lengthArg
    ++ " summary:\n\n".data ++ joinSep "\n\n".data (partLabels summaries 0)

/-- The per-chunk loop of `TextSummarizerAgent._summarize_text`
(text_summarizer.py:188-197): each iteration makes exactly one
chat-completion call (modelled by the oracle `chat`, which maps the user
prompt to the response text) and appends the stripped response.  The
result is the list of chunk summaries in chunk order, paired with the
number of chat-completion calls made. -/
def summarizeChunkLoop (chat : Str → Str) (total : Nat) :
    List Str → Nat → List Str × Nat
  | [], _ => ([], 0)
  | c :: rest, i =>
      (pyStrip (chat (chunkPrompt (i + 1) total c))
          :: (summarizeChunkLoop chat total rest (i + 1)).1,
        (summarizeChunkLoop chat total rest (i + 1)).2 + 1)

/-- Embedding of `TextSummarizerAgent._summarize_text`
(text_summarizer.py:171-224), restricted to its chat-completion structure:
texts no longer than the configured chunk size get a single call; longer
texts are chunked with `chunk_text`, each chunk summarized by one call,
and if more than one summary resulted, one further combine call is made.
Returns the result text and the total number of chat-completion calls
(`ensure_model_available` makes no chat-completion call). -/
def summarize_text (chat : Str → Str) (lengthArg : Str) (chunkSize : Nat)
    (text : Str) : Str × Nat :=
  if text.length > chunkSize then
    let chunks := chunk_text chunkSize text
    let res := summarizeChunkLoop chat chunks.length chunks 0
    if res.1.length > 1 then
      (pyStrip (chat (combinePrompt lengthArg res.1)), res.2 + 1)
    else
      (res.1.headD [], res.2)
  else
    (pyStrip (chat (singleSummaryPrompt text)), 1)

/-- Character class of the URL regex of `TextCleanerAgent._clean_text`
(text_cleaner.py:165): `[a-zA-Z]`, `[0-9]`, `[$-_@.&+]` (a range from `$`
to `_`, which subsumes the listed extras) and `[!*\\(\\),]` (all but `!`
already lie in that range); the `%xx` alternative adds no new characters. -/
def isUrlChar (c : Char) : Bool :=
  c.isAlpha || c.isDigit || ('$' ≤ c && c ≤ '_') || c = '!'

/-- Matcher for `http[s]?://(...)+` at the head of the list; on a match,
returns the remainder after the greedy maximal match. -/
def matchUrlAt (l : Str) : Option Str :=
  let tryScheme : Str → Option Str := fun r =>
    match r with
    | ':' :: '/' :: '/' :: r2 =>
        if r2.takeWhile isUrlChar = [] then none
        else some (r2.dropWhile isUrlChar)
    | _ => none
  match l with
  | 'h' :: 't' :: 't' :: 'p' :: rest =>
      match rest with
      | 's' :: rest2 =>
          match tryScheme rest2 with
          | some r => some r
          | none => tryScheme rest
      | _ => tryScheme rest
  | _ => none

/-- Fuelled scan for the URL substitution of `TextCleanerAgent._clean_text`
(text_cleaner.py:163-166): every match is replaced by a single space. -/
def urlSubF : Nat → Str → Str
  | 0, l => l
  | _ + 1, [] => []
  | fuel + 1, c :: cs =>
      match matchUrlAt (c :: cs) with
      | some rest => ' ' :: urlSubF fuel rest
      | none => c :: urlSubF fuel cs

/-- `re.sub(url_pattern, ' ', text)` of `TextCleanerAgent._clean_text`. -/
def urlSub (l : Str) : Str := urlSubF l.length l

/-- Python regex `\w` on the ASCII text the toolkit manipulates. -/
def isWordChar (c : Char) : Bool := c.isAlphanum || c = '_'

/-- The local-part class `[A-Za-z0-9._%+-]` of the email regex. -/
def isLocalChar (c : Char) : Bool :=
  c.isAlphanum || c = '.' || c = '_' || c = '%' || c = '+' || c = '-'

/-- The domain class `[A-Za-z0-9.-]` of the email regex. -/
def isDomChar (c : Char) : Bool := c.isAlphanum || c = '.' || c = '-'

/-- The top-level-domain class `[A-Z|a-z]` of the email regex (the literal
`|` inside the bracket is part of the class). -/
def isTldChar (c : Char) : Bool := c.isAlpha || c = '|'

/-- Word-boundary test `\b` between a consumed character and the next one. -/
def boundAfter (last : Char) (next : Option Char) : Bool :=
  isWordChar last != (match next with | some c => isWordChar c | none => false)

/-- Backtracking over the greedy `{2,}` TLD quantifier: try TLD lengths
from `j` down to 2, requiring the trailing `\b`.  On success return the
remainder after the match and the last matched character. -/
def tryTldLen (t tr : Str) : Nat → Option (Str × Char)
  | 0 => none
  | 1 => none
  | j' + 2 =>
      let j := j' + 2
      if j ≤ t.length then
        let consumed := t.take j
        let after := t.drop j ++ tr
        if boundAfter (consumed.getLast!) after.head? then
          some (after, consumed.getLast!)
        else tryTldLen t tr (j' + 1)
      else tryTldLen t tr (j' + 1)

/-- Match `\.[A-Z|a-z]{2,}\b` against `tail` (greedy, then backtrack). -/
def tryTld (tail : Str) : Option (Str × Char) :=
  let t := tail.takeWhile isTldChar
  tryTldLen t (tail.dropWhile isTldChar) t.length

/-- Backtracking over the greedy domain quantifier: the final `\.` must
match a dot inside the maximal domain run, tried right to left. -/
def tryDots (run rest : Str) : Nat → Option (Str × Char)
  | 0 => none
  | i + 1 =>
      match (if run.get? (i + 1) = some '.'
             then tryTld (run.drop (i + 2) ++ rest) else none) with
      | some r => some r
      | none => tryDots run rest i

/-- Matcher for the email regex
`\b[A-Za-z0-9._%+-]+@[A-Za-z0-9.-]+\.[A-Z|a-z]{2,}\b`
(text_cleaner.py:170) at the head of the list; `prevIsWord` tells whether
the character before the scan position was a word character. -/
def matchEmailAt (prevIsWord : Bool) (l : Str) : Option (Str × Char) :=
  let loc := l.takeWhile isLocalChar
  match loc with
  | [] => none
  | c0 :: _ =>
      if isWordChar c0 == prevIsWord then none
      else
        match l.dropWhile isLocalChar with
        | '@' :: r2 =>
            let run := r2.takeWhile isDomChar
            let rest := r2.dropWhile isDomChar
            if run = [] then none
            else tryDots run rest (run.length - 1)
        | _ => none

/-- Fuelled scan for the email substitution of
`TextCleanerAgent._clean_text` (text_cleaner.py:168-171): every match is
replaced by a single space; scanning resumes after the match. -/
def emailSubF : Nat → Bool → Str → Str
  | 0, _, l => l
  | _ + 1, _, [] => []
  | fuel + 1, prevW, c :: cs =>
      match matchEmailAt prevW (c :: cs) with
      | some (rest, lastC) => ' ' :: emailSubF fuel (isWordChar lastC) rest
      | none => c :: emailSubF fuel (isWordChar c) cs

/-- `re.sub(email_pattern, ' ', text)` of `TextCleanerAgent._clean_text`. -/
def emailSub (l : Str) : Str := emailSubF l.length false l

/-- `re.sub(r'\d+', '', text)` (text_cleaner.py:175). -/
def digitsSub (l : Str) : Str := l.filter (fun c => !c.isDigit)

/-- `re.sub(r'[^\w\s]', '', text)` (text_cleaner.py:179). -/
def punctRemove (l : Str) : Str :=
  l.filter (fun c => isWordChar c || pySpace c)

/-- The "problematic symbols" class of `TextCleanerAgent._clean_text`
(text_cleaner.py:183): `@ ! % ^ & * ( ) _ + } { : " ? < > \ / [ ] # $ ~`
backquote `| ; =`. -/
def isProblematic (c : Char) : Bool :=
  c ∈ ['@', '!', '%', '^', '&', '*', '(', ')', '_', '+', Char.ofNat 125,
    Char.ofNat 123, ':', Char.ofNat 34, '?', '<', '>', '\\', '/', '[', ']',
    '#', '$', '~', Char.ofNat 96, '|', ';', '=']

/-- `re.sub(problematic_symbols, '', text)` (text_cleaner.py:184). -/
def problematicSub (l : Str) : Str := l.filter (fun c => !isProblematic c)

/-- The class `[.!?]` of the repeated-punctuation cleanups. -/
def isSentencePunct (c : Char) : Bool := c = '.' || c = '!' || c = '?'

/-- Fuelled scan for `re.sub(r'[.!?]{3,}', '...', text)`
(text_cleaner.py:187): a maximal run of three or more sentence-punctuation
characters becomes `...`. -/
def punct3SubF : Nat → Str → Str
  | 0, l => l
  | _ + 1, [] => []
  | fuel + 1, c :: cs =>
      if isSentencePunct c ∧ (cs.takeWhile isSentencePunct).length + 1 ≥ 3 then
        '.' :: '.' :: '.' :: punct3SubF fuel (cs.dropWhile isSentencePunct)
      else c :: punct3SubF fuel cs

/-- `re.sub(r'[.!?]{3,}', '...', text)`. -/
def punct3Sub (l : Str) : Str := punct3SubF l.length l

/-- Fuelled scan for `re.sub(r'[.!?]{2}', '.', text)` (text_cleaner.py:188):
each pair of sentence-punctuation characters becomes a single period. -/
def punct2SubF : Nat → Str → Str
  | 0, l => l
  | _ + 1, [] => []
  | fuel + 1, c :: cs =>
      match cs with
      | c2 :: cs2 =>
          if isSentencePunct c ∧ isSentencePunct c2 then
            '.' :: punct2SubF fuel cs2
          else c :: punct2SubF fuel cs
      | [] => c :: punct2SubF fuel []

/-- `re.sub(r'[.!?]{2}', '.', text)`. -/
def punct2Sub (l : Str) : Str := punct2SubF l.length l

/-- Fuelled scan for `re.sub(r'[,]{2,}', ',', text)` (text_cleaner.py:189);
a single comma is its own one-element "run", so the scan simply collapses
every maximal comma run to one comma. -/
def commaSubF : Nat → Str → Str
  | 0, l => l
  | _ + 1, [] => []
  | fuel + 1, c :: cs =>
      if c = ',' then ',' :: commaSubF fuel (cs.dropWhile (· = ','))
      else c :: commaSubF fuel cs

/-- `re.sub(r'[,]{2,}', ',', text)`. -/
def commaSub (l : Str) : Str := commaSubF l.length l

/-- State-machine form of `re.sub(r'\s+', ' ', text)` (text_cleaner.py:193):
`prevSpace` records whether the current position is inside a whitespace
run whose replacement space was already emitted. -/
def collapseWsAux : Bool → Str → Str
  | _, [] => []
  | true, c :: cs =>
      if pySpace c then collapseWsAux true cs
      else c :: collapseWsAux false cs
  | false, c :: cs =>
      if pySpace c then ' ' :: collapseWsAux true cs
      else c :: collapseWsAux false cs

/-- `re.sub(r'\s+', ' ', text)`: every maximal whitespace run becomes one
space. -/
def collapseWs (l : Str) : Str := collapseWsAux false l

/-- The whitespace-normalization step shared by the cleaner tools:
`re.sub(r'\s+', ' ', text)` followed by `text.strip()`. -/
def normWs (l : Str) : Str := pyStrip (collapseWs l)

/-- The keyword arguments of the `clean_text` tool; a `none` field models a
key absent from the `arguments` dict. -/
structure CleanTextArgs where
  text : Str
  remove_numbers : Option Bool := none
  remove_punctuation : Option Bool := none
  normalize_whitespace : Option Bool := none
  to_lowercase : Option Bool := none
  remove_urls : Option Bool := none
  remove_emails : Option Bool := none

/-- `arguments.get("remove_urls", True)` (text_cleaner.py:159). -/
def effective_remove_urls (args : CleanTextArgs) : Bool :=
  args.remove_urls.getD true

/-- `arguments.get("remove_emails", True)` (text_cleaner.py:160). -/
def effective_remove_emails (args : CleanTextArgs) : Bool :=
  args.remove_emails.getD true

/-- The `default` value published for `remove_urls` in the `clean_text`
input schema of `TextCleanerAgent.get_tools` (text_cleaner.py:47-51). -/
def clean_text_schema_remove_urls_default : Bool := false

/-- The `default` value published for `remove_emails` in the `clean_text`
input schema of `TextCleanerAgent.get_tools` (text_cleaner.py:52-56). -/
def clean_text_schema_remove_emails_default : Bool := false

/-- Embedding of `TextCleanerAgent._clean_text` (text_cleaner.py:149-199):
validate, then apply the selected substitutions in source order.  With
`remove_punctuation` false the problematic-symbol removal and the three
repeated-punctuation cleanups run instead. -/
def clean_text (maxLen : Nat) (args : CleanTextArgs) : Except Str Str := do
  let t0 ← validate_text_input maxLen args.text
  let t1 := if effective_remove_urls args then urlSub t0 else t0
  let t2 := if effective_remove_emails args then emailSub t1 else t1
  let t3 := if args.remove_numbers.getD false then digitsSub t2 else t2
  let t4 := if args.remove_punctuation.getD false then punctRemove t3
            else commaSub (punct2Sub (punct3Sub (problematicSub t3)))
  let t5 := if args.normalize_whitespace.getD true then normWs t4 else t4
  let t6 := if args.to_lowercase.getD false then t5.map Char.toLower else t5
  pure t6

/-- Scan past the first `>` of the list, returning what follows it. -/
def afterGt : Str → Option Str
  | [] => none
  | c :: cs => if c = '>' then some cs else afterGt cs

/-- Matcher for `[^>]+>` right after a `<`: a nonempty run of non-`>`
characters then a `>`; returns what follows the match. -/
def findClose : Str → Option Str
  | [] => none
  | c :: cs => if c = '>' then none else afterGt cs

/-- Fuelled scan for `re.sub(r'<[^>]+>', '', text)` (text_cleaner.py:247):
every complete tag is removed; a `<` that opens no complete tag is kept. -/
def stripTagsF : Nat → Str → Str
  | 0, l => l
  | _ + 1, [] => []
  | fuel + 1, c :: cs =>
      if c = '<' then
        match findClose cs with
        | some rest => stripTagsF fuel rest
        | none => c :: stripTagsF fuel cs
      else c :: stripTagsF fuel cs

/-- `re.sub(r'<[^>]+>', '', text)`. -/
def stripTags (l : Str) : Str := stripTagsF l.length l

/-- Embedding of `TextCleanerAgent._remove_html_tags`
(text_cleaner.py:240-257) with its default `preserve_content=True`:
validate, drop complete tags, collapse whitespace, strip. -/
def remove_html_tags (maxLen : Nat) (text : Str) : Except Str Str := do
  let t ← validate_text_input maxLen text
  pure (normWs (stripTags t))


/-- The fields of `Config` (utils/config.py:15-55) that `_validate_config`
inspects, plus `host` as a representative unvalidated field.  Python ints
are modelled by `Int`, the float `temperature` by `ℚ`. -/
structure Config where
  host : Str
  port : Int
  ollama_port : Int
  ui_port : Int
  log_level : Str
  max_text_length : Int
  chunk_size : Int
  temperature : ℚ
  max_tokens : Int
  deriving DecidableEq

/-- Python `str.upper()` on the ASCII configuration strings. -/
def pyToUpper (l : Str) : Str := l.map Char.toUpper

/-- The `Config()` produced from the documented defaults
(utils/config.py:20-42). -/
def defaultConfig : Config where
  host := "localhost".data
  port := 8000
  ollama_port := 11434
  ui_port := 8501
  log_level := "INFO".data
  max_text_length := 100000
  chunk_size := 1000
  temperature := mkRat 1 10
  max_tokens := 2000

/-- Embedding of `Config._validate_config` (utils/config.py:75-100): the
first violated invariant raises a `ValueError`, modelled as `some msg`;
`none` means validation passed. -/
def validateConfig (c : Config) : Option String :=
  if c.port < 1 ∨ c.port > 65535 then some "Invalid port number"
  else if c.ollama_port < 1 ∨ c.ollama_port > 65535 then
    some "Invalid Ollama port number"
  else if c.ui_port < 1 ∨ c.ui_port > 65535 then some "Invalid UI port number"
  else if ¬ (pyToUpper c.log_level ∈
      ["DEBUG".data, "INFO".data, "WARNING".data, "ERROR".data,
       "CRITICAL".data]) then
    some "Invalid log level"
  else if c.max_text_length ≤ 0 then some "Invalid max_text_length"
  else if c.chunk_size ≤ 0 then some "Invalid chunk_size"
  else if ¬ ((0 : ℚ) ≤ c.temperature ∧ c.temperature ≤ 2) then
    some "Invalid temperature"
  else if c.max_tokens ≤ 0 then some "Invalid max_tokens"
  else none

/-- One keyword argument of `Config.update`: a known attribute paired with
its new value, or an unknown key (for which `hasattr` is false). -/
inductive ConfigKV where
  | host (v : Str)
  | port (v : Int)
  | ollamaPort (v : Int)
  | uiPort (v : Int)
  | logLevel (v : Str)
  | maxTextLength (v : Int)
  | chunkSize (v : Int)
  | temperature (v : ℚ)
  | maxTokens (v : Int)
  | unknownKey (key : String)

/-- `setattr(self, key, value)` for a known key; `none` models the
`ValueError` raised for an unknown configuration key. -/
def applyKV (c : Config) : ConfigKV → Option Config
  | .host v => some { c with host := v }
  | .port v => some { c with port := v }
  | .ollamaPort v => some { c with ollama_port := v }
  | .uiPort v => some { c with ui_port := v }
  | .logLevel v => some { c with log_level := v }
  | .maxTextLength v => some { c with max_text_length := v }
  | .chunkSize v => some { c with chunk_size := v }
  | .temperature v => some { c with temperature := v }
  | .maxTokens v => some { c with max_tokens := v }
  | .unknownKey _ => none

/-- The `for key, value in kwargs.items()` loop of `Config.update`
(utils/config.py:151-155): attributes are mutated one by one; an unknown
key raises, leaving the attributes already set in place. -/
def updateLoop : Config → List ConfigKV → Config × Option String
  | c, [] => (c, none)
  | c, kv :: rest =>
      match applyKV c kv with
      | some c' => updateLoop c' rest
      | none => (c, some "Unknown configuration key")

/-- Embedding of `Config.update` (utils/config.py:149-158): mutate all
attributes, then re-validate.  The returned `Config` is the state of the
object after the call, whether or not an error was raised; the second
component is the raised error, if any. -/
def configUpdate (c : Config) (kvs : List ConfigKV) : Config × Option String :=
  match updateLoop c kvs with
  | (c', some e) => (c', some e)
  | (c', none) => (c', validateConfig c')


/-- The fields of `PerformanceMetrics` (utils/gpu_monitor.py:41-52) touched
by `record_inference_performance`; the float members are modelled by `ℚ`. -/
structure PerfMetrics where
  request_count : Nat
  total_tokens_processed : Int
  inference_speed : ℚ
  average_response_time : ℚ
  deriving DecidableEq

/-- A fresh `PerformanceMetrics()` (all counters zero). -/
def freshMetrics : PerfMetrics :=
  { request_count := 0, total_tokens_processed := 0, inference_speed := 0,
    average_response_time := 0 }

/-- Embedding of `GPUMonitor.record_inference_performance`
(utils/gpu_monitor.py:334-347): bump the request counter and token total,
update the tokens/second speed when the response time is positive, and
fold the response time into the running average with
`(oldAvg * (n - 1) + x) / n`. -/
def record_inference_performance (m : PerfMetrics) (tokens : Int) (rt : ℚ) :
    PerfMetrics :=
  let count := m.request_count + 1
  { request_count := count
    total_tokens_processed := m.total_tokens_processed + tokens
    inference_speed := if rt > 0 then (tokens : ℚ) / rt else m.inference_speed
    average_response_time :=
      (m.average_response_time * ((count : ℚ) - 1) + rt) / (count : ℚ) }

/-- Python slicing `l[-n:]`: the last `n` elements for `n ≥ 1`, but the
whole list for `n = 0` (since `-0` is `0`). -/
def pySliceLastN (n : Nat) (l : List α) : List α :=
  if n = 0 then l else l.drop (l.length - n)

/-- The history-maintenance core of `GPUMonitor.update_metrics`
(utils/gpu_monitor.py:119-124): append the freshly built sample, then trim
`metrics_history` to `metrics_history[-max_history_size:]` whenever its
length exceeds the cap.  The sampled value `m` is an input (in the source
it is assembled from `nvidia-smi` and `ollama ps` probes). -/
def updateMetricsHistory (cap : Nat) (hist : List α) (m : α) : List α :=
  if (hist ++ [m]).length > cap then pySliceLastN cap (hist ++ [m])
  else hist ++ [m]

/-- The `max_history_size` set in `GPUMonitor.__init__`
(utils/gpu_monitor.py:62). -/
def maxHistorySize : Nat := 1000

/-- The registry entry built by `MCPServer._register_agent`
(mcp_server.py:196-201); the agent object is represented by the names of
the tools it advertises. -/
structure AgentInfo where
  name : Str
  description : Str
  toolNames : List Str
  deriving DecidableEq

/-- Python dict assignment `self.agents[name] = agent_info`
(mcp_server.py:202): replace the entry with the same key if present,
otherwise append (dicts preserve insertion order). -/
def dictInsert (reg : List AgentInfo) (info : AgentInfo) : List AgentInfo :=
  if reg.any (fun a => a.name = info.name) then
    reg.map (fun a => if a.name = info.name then info else a)
  else reg ++ [info]

/-- Embedding of `MCPServer._register_agent` (mcp_server.py:192-207): build
the `AgentInfo` from the agent's advertised tools and store it under the
agent name.  No check of any kind is made against the tools already
registered; the only failure path re-raises an exception of the agent's
own `get_tools`, which is total here. -/
def register_agent (reg : List AgentInfo) (name description : Str)
    (toolNames : List Str) : List AgentInfo :=
  dictInsert reg { name := name, description := description,
                   toolNames := toolNames }

/-- All tool names of the registry, in agent order (`list_tools` and the
dispatch loop traverse them in exactly this order). -/
def allToolNames (reg : List AgentInfo) : List Str :=
  (reg.map AgentInfo.toolNames).flatten

/-- The registrations performed by `MCPServer._initialize_agents`
(mcp_server.py:119-190), with each agent's tool list as returned by its
`get_tools` method, in source order. -/
def initializeAgents : List AgentInfo :=
  register_agent (register_agent (register_agent (register_agent
    (register_agent (register_agent (register_agent (register_agent []
      "text_cleaner".data
      "Clean and normalize text by removing special characters and formatting".data
      ["clean_text".data, "normalize_unicode".data,
       "remove_special_symbols".data, "remove_html_tags".data])
      "diacritic_remover".data
      "Remove diacritical marks and accents from text".data
      ["remove_diacritics".data, "transliterate_text".data,
       "normalize_text".data])
      "text_analyzer".data
      "Analyze text for statistics, readability, and linguistic properties".data
      ["analyze_text_basic".data, "analyze_readability".data,
       "word_frequency_analysis".data, "text_complexity_analysis".data])
      "grammar_checker".data
      "Check and correct grammar, spelling, and style issues".data
      ["check_grammar".data, "suggest_improvements".data,
       "explain_corrections".data])
      "text_summarizer".data
      "Generate concise summaries of longer texts".data
      ["summarize_text".data, "extract_key_points".data,
       "generate_headlines".data])
      "language_detector".data
      "Detect the language of input text".data
      ["detect_language".data, "detect_multiple_languages".data])
      "sentiment_analyzer".data
      "Analyze emotional tone and sentiment of text".data
      ["analyze_sentiment".data, "transform_sentiment".data,
       "sentiment_comparison".data])
      "text_anonymizer".data
      "Anonymize sensitive information in text for privacy protection".data
      ["anonymize_text".data, "detect_sensitive_info".data,
       "smart_anonymize".data, "create_anonymization_report".data]

/-- The inner loop of `call_tool` (mcp_server.py:86-93) and of the HTTP
`execute_tool` handler (http_server.py:170-177): the first agent in
registry order whose tool list contains the name. -/
def findAgent (reg : List AgentInfo) (tool : Str) : Option AgentInfo :=
  reg.find? (fun a => a.toolNames.contains tool)

/-- The `CallToolResult` fields relevant to dispatch: the single text
content and the `isError` flag (which defaults to false). -/
structure CallResult where
  text : Str
  isError : Bool
  deriving DecidableEq

/-- ASCII apostrophe, written by code point to keep string literals plain. -/
def quoteChar : Char := Char.ofNat 39

/-- The message `f"Tool '{name}' not found"` (mcp_server.py:96). -/
def toolNotFoundMsg (name : Str) : Str :=
  "Tool ".data ++ [quoteChar] ++ name ++ [quoteChar] ++ " not found".data

/-- The message `f"Error executing tool '{name}': {e}"` (mcp_server.py:112). -/
def toolErrorMsg (name e : Str) : Str :=
  "Error executing tool ".data ++ [quoteChar] ++ name ++ [quoteChar]
    ++ ": ".data ++ e

/-- Embedding of the `call_tool` handler (mcp_server.py:76-117).  The
behavior of `agent.execute_tool` is the oracle `exec`, taking the owning
agent's name, the tool name and the arguments, and either returning text
or raising (`Except.error`).  Every branch, including an unknown tool and
a raising agent, produces a `CallResult`; no exception escapes. -/
def call_tool (exec : Str → Str → α → Except Str Str)
    (reg : List AgentInfo) (name : Str) (args : α) : CallResult :=
  match findAgent reg name with
  | none => { text := toolNotFoundMsg name, isError := true }
  | some a =>
      match exec a.name name args with
      | .ok r => { text := r, isError := false }
      | .error e => { text := toolErrorMsg name e, isError := true }

/-- A raised `fastapi.HTTPException` with its status code and detail. -/
structure HTTPExc where
  status_code : Nat
  detail : Str
  deriving DecidableEq

/-- The `ToolResponse` model of the HTTP server (http_server.py). -/
structure ToolResponse where
  result : Str
  success : Bool
  error : Option Str
  deriving DecidableEq

/-- Embedding of the HTTP `execute_tool` handler (http_server.py:157-193).
An unknown tool raises `HTTPException(404, ...)`, which the
`except HTTPException: raise` clause re-raises out of the handler
(modelled as `Except.error`); any other agent exception is converted to a
`ToolResponse` with `success` false. -/
def http_execute_tool (exec : Str → Str → α → Except Str Str)
    (reg : List AgentInfo) (name : Str) (args : α) :
    Except HTTPExc ToolResponse :=
  match findAgent reg name with
  | none => .error { status_code := 404, detail := toolNotFoundMsg name }
  | some a =>
      match exec a.name name args with
      | .ok r => .ok { result := r, success := true, error := none }
      | .error e =>
          .ok { result := [], success := false,
                error := some (toolErrorMsg name e) }

/-! Lemmas and claim theorems. -/

/-- A word as produced by `str.split()`: nonempty and whitespace-free. -/
def goodWord (w : Str) : Prop := w ≠ [] ∧ ∀ c ∈ w, pySpace c = false

theorem wordsAux_append_word (w : Str) (hw : ∀ c ∈ w, pySpace c = false) :
    ∀ cs cur, wordsAux (w ++ cs) cur = wordsAux cs (cur ++ w) := by
  induction w with
  | nil => intro cs cur; simp
  | cons c cw ih =>
      intro cs cur
      have hc : pySpace c = false := hw c (List.mem_cons_self c cw)
      have hcw : ∀ x ∈ cw, pySpace x = false := fun x hx =>
        hw x (List.mem_cons_of_mem c hx)
      show wordsAux (c :: (cw ++ cs)) cur = _
      simp only [wordsAux, hc, Bool.false_eq_true, if_false]
      rw [ih hcw cs (cur ++ [c])]
      simp

theorem wordsAux_space_cons (c : Char) (hc : pySpace c = true) (cs : Str)
    (cur : Str) (hcur : cur ≠ []) :
    wordsAux (c :: cs) cur = cur :: wordsAux cs [] := by
  simp [wordsAux, hc, hcur]

theorem joinWords_single (w : Str) : joinWords [w] = w := by
  simp [joinWords, joinRest]

theorem joinWords_cons_cons (w w' : Str) (ws : List Str) :
    joinWords (w :: w' :: ws) = w ++ ' ' :: joinWords (w' :: ws) := by
  simp [joinWords, joinRest]

theorem pyWords_join (ws : List Str) (h : ∀ w ∈ ws, goodWord w) :
    pyWords (joinWords ws) = ws := by
  induction ws with
  | nil => simp [pyWords, joinWords, wordsAux]
  | cons w tail ih =>
      obtain ⟨hw1, hw2⟩ := h w (List.mem_cons_self w tail)
      cases tail with
      | nil =>
          rw [joinWords_single]
          show wordsAux w [] = [w]
          have := wordsAux_append_word w hw2 [] []
          simp only [List.append_nil, List.nil_append] at this
          rw [this]
          simp [wordsAux, hw1]
      | cons w' ws' =>
          rw [joinWords_cons_cons]
          show wordsAux (w ++ ' ' :: joinWords (w' :: ws')) [] = w :: w' :: ws'
          rw [wordsAux_append_word w hw2 _ []]
          simp only [List.nil_append]
          rw [wordsAux_space_cons ' ' (by decide) _ w hw1]
          have : wordsAux (joinWords (w' :: ws')) [] = w' :: ws' :=
            ih (fun x hx => h x (List.mem_cons_of_mem w hx))
          rw [this]

theorem wordsAux_good (l : Str) :
    ∀ cur, (∀ c ∈ cur, pySpace c = false) →
      ∀ w ∈ wordsAux l cur, goodWord w := by
  induction l with
  | nil =>
      intro cur hcur w hw
      by_cases hc : cur = []
      · simp [wordsAux, hc] at hw
      · simp only [wordsAux, hc, if_false, List.mem_singleton] at hw
        subst hw
        exact ⟨hc, hcur⟩
  | cons c cs ih =>
      intro cur hcur w hw
      by_cases hsp : pySpace c = true
      · by_cases hc : cur = []
        · rw [hc] at hw
          simp only [wordsAux, hsp, if_true] at hw
          exact ih [] (by simp) w hw
        · rw [wordsAux_space_cons c hsp cs cur hc] at hw
          rcases List.mem_cons.mp hw with h | h
          · subst h; exact ⟨hc, hcur⟩
          · exact ih [] (by simp) w h
      · have hsp' : pySpace c = false := by
          cases hb : pySpace c
          · rfl
          · exact absurd hb hsp
        simp only [wordsAux, hsp', Bool.false_eq_true, if_false] at hw
        refine ih (cur ++ [c]) ?_ w hw
        intro x hx
        rcases List.mem_append.mp hx with h | h
        · exact hcur x h
        · rw [List.mem_singleton.mp h]; exact hsp'

theorem pyWords_good (l : Str) : ∀ w ∈ pyWords l, goodWord w :=
  wordsAux_good l [] (by simp)

theorem chunkLoop_flatten (cs : Nat) :
    ∀ ws cur len, (∀ w ∈ ws, goodWord w) → (∀ w ∈ cur, goodWord w) →
      ((chunkLoop cs ws cur len).map pyWords).flatten = cur ++ ws := by
  intro ws
  induction ws with
  | nil =>
      intro cur len _ hcur
      by_cases hc : cur = []
      · simp [chunkLoop, hc]
      · simp only [chunkLoop, hc, if_false, List.map_cons, List.map_nil,
          List.flatten_cons, List.flatten_nil, List.append_nil]
        rw [pyWords_join cur hcur]
  | cons w ws ih =>
      intro cur len hws hcur
      have hw : goodWord w := hws w (List.mem_cons_self w ws)
      have hws' : ∀ x ∈ ws, goodWord x := fun x hx =>
        hws x (List.mem_cons_of_mem w hx)
      by_cases hbr : len + (w.length + 1) > cs ∧ cur ≠ []
      · simp only [chunkLoop, if_pos hbr, List.map_cons, List.flatten_cons]
        rw [pyWords_join cur hcur,
          ih [w] w.length hws' (by intro x hx; rw [List.mem_singleton.mp hx]; exact hw)]
        simp
      · simp only [chunkLoop, if_neg hbr]
        rw [ih (cur ++ [w]) (len + (w.length + 1)) hws' ?_]
        · simp
        · intro x hx
          rcases List.mem_append.mp hx with h | h
          · exact hcur x h
          · rw [List.mem_singleton.mp h]; exact hw

theorem joinRest_append_single (xs : List Str) (w : Str) :
    joinRest (xs ++ [w]) = joinRest xs ++ ' ' :: w := by
  induction xs with
  | nil => simp [joinRest]
  | cons x xs ih => simp [joinRest, ih]

theorem joinWords_append_single (cur : List Str) (w : Str) (h : cur ≠ []) :
    (joinWords (cur ++ [w])).length
      = (joinWords cur).length + 1 + w.length := by
  cases cur with
  | nil => exact absurd rfl h
  | cons c rest =>
      simp only [joinWords, List.cons_append, joinRest_append_single]
      simp [List.length_append]
      omega

/-- Folding `record_inference_performance` keeps the running average an
exact incremental mean: after any batch, `avg * count` equals the old
weighted total plus the new response times, and the counters add up. -/
theorem record_fold_inv (ts : List (Int × ℚ)) :
    ∀ m : PerfMetrics,
      ((ts.foldl (fun m p => record_inference_performance m p.1 p.2) m).request_count
          = m.request_count + ts.length)
      ∧ ((ts.foldl (fun m p => record_inference_performance m p.1 p.2) m).total_tokens_processed
          = m.total_tokens_processed + (ts.map Prod.fst).sum)
      ∧ ((ts.foldl (fun m p => record_inference_performance m p.1 p.2) m).average_response_time
            * ((m.request_count : ℚ) + (ts.length : ℚ))
          = m.average_response_time * (m.request_count : ℚ) + (ts.map Prod.snd).sum) := by
  induction ts with
  | nil => intro m; simp
  | cons p rest ih =>
      intro m
      obtain ⟨h1, h2, h3⟩ := ih (record_inference_performance m p.1 p.2)
      have hcn : (record_inference_performance m p.1 p.2).request_count
          = m.request_count + 1 := rfl
      have htt : (record_inference_performance m p.1 p.2).total_tokens_processed
          = m.total_tokens_processed + p.1 := rfl
      refine ⟨?_, ?_, ?_⟩
      · rw [List.foldl_cons, h1, hcn, List.length_cons]
        omega
      · rw [List.foldl_cons, h2, htt, List.map_cons, List.sum_cons]
        ring
      · have hne : ((m.request_count : ℚ) + 1) ≠ 0 := by positivity
        have havg : (record_inference_performance m p.1 p.2).average_response_time
            = (m.average_response_time * (((m.request_count + 1 : ℕ) : ℚ) - 1)
                + p.2) / ((m.request_count + 1 : ℕ) : ℚ) := rfl
        push_cast at havg
        have hrec :
            (record_inference_performance m p.1 p.2).average_response_time
                * ((m.request_count : ℚ) + 1)
              = m.average_response_time * (m.request_count : ℚ) + p.2 := by
          rw [havg, div_mul_cancel₀ _ hne]; ring
        rw [hcn] at h3
        push_cast at h3
        simp only [List.foldl_cons, List.length_cons, List.map_cons,
          List.sum_cons]
        push_cast
        have e1 : (List.foldl (fun m p => record_inference_performance m p.1 p.2)
              (record_inference_performance m p.1 p.2) rest).average_response_time
              * ((m.request_count : ℚ) + ((rest.length : ℚ) + 1))
            = (List.foldl (fun m p => record_inference_performance m p.1 p.2)
                (record_inference_performance m p.1 p.2) rest).average_response_time
              * ((m.request_count : ℚ) + 1 + (rest.length : ℚ)) := by ring
        rw [e1, h3, hrec]
        ring

/-- C6.  After recording any nonempty sequence of inference performances
from a fresh metrics state, `average_response_time` is exactly the
arithmetic mean of the recorded response times (real arithmetic is
modelled by `ℚ`), computed incrementally; the request counter and token
total likewise match the sequence. -/
theorem c6_incremental_average (ts : List (Int × ℚ)) (h : ts ≠ []) :
    (ts.foldl (fun m p => record_inference_performance m p.1 p.2)
        freshMetrics).average_response_time
      = (ts.map Prod.snd).sum / (ts.length : ℚ)
    ∧ (ts.foldl (fun m p => record_inference_performance m p.1 p.2)
        freshMetrics).request_count = ts.length
    ∧ (ts.foldl (fun m p => record_inference_performance m p.1 p.2)
        freshMetrics).total_tokens_processed = (ts.map Prod.fst).sum := by
  obtain ⟨h1, h2, h3⟩ := record_fold_inv ts freshMetrics
  have hlen : (ts.length : ℚ) ≠ 0 := by
    exact_mod_cast (List.length_pos.mpr h).ne'
  refine ⟨?_, by simpa [freshMetrics] using h1, by simpa [freshMetrics] using h2⟩
  have h3' : (ts.foldl (fun m p => record_inference_performance m p.1 p.2)
      freshMetrics).average_response_time * (ts.length : ℚ)
        = (ts.map Prod.snd).sum := by
    simpa [freshMetrics] using h3
  field_simp [eq_div_iff hlen]
  linarith [h3']

/-- Witness for C6 at the two-element sequence `[(10, 2), (5, 4)]`. -/
theorem c6_incremental_average_witness :
    ([((10 : Int), (2 : ℚ)), (5, 4)] : List (Int × ℚ)) ≠ []
    ∧ (([((10 : Int), (2 : ℚ)), (5, 4)] : List (Int × ℚ)).foldl
        (fun m p => record_inference_performance m p.1 p.2)
        freshMetrics).average_response_time
      = (([((10 : Int), (2 : ℚ)), (5, 4)] : List (Int × ℚ)).map Prod.snd).sum
          / (([((10 : Int), (2 : ℚ)), (5, 4)] : List (Int × ℚ)).length : ℚ) :=
  ⟨by simp, (c6_incremental_average [(10, 2), (5, 4)] (by simp)).1⟩

/-- C7.  After every `update_metrics` history step with a positive cap,
the history length is at most the cap and the retained samples are
exactly the most recent ones, in append order: the result is the suffix
of `history ++ [sample]` obtained by dropping the oldest overflow. -/
theorem c7_history_bounded_fifo {α : Type} (cap : Nat) (hist : List α)
    (m : α) (hcap : 1 ≤ cap) :
    (updateMetricsHistory cap hist m).length ≤ cap
    ∧ updateMetricsHistory cap hist m
        = (hist ++ [m]).drop (hist.length + 1 - cap) := by
  have hc0 : cap ≠ 0 := by omega
  by_cases h : (hist ++ [m]).length > cap
  · have h' : hist.length + 1 > cap := by simpa using h
    constructor
    · simp only [updateMetricsHistory, pySliceLastN, if_pos h, if_neg hc0,
        List.length_drop]
      omega
    · simp only [updateMetricsHistory, pySliceLastN, if_neg hc0, if_pos h,
        List.length_append, List.length_cons, List.length_nil]
      rw [if_pos (by simpa using h')]
  · have hlen : hist.length + 1 ≤ cap := by simpa using h
    have hdrop : hist.length + 1 - cap = 0 := by omega
    constructor
    · simp only [updateMetricsHistory, if_neg h]
      simpa using hlen
    · simp only [updateMetricsHistory, if_neg h, hdrop, List.drop_zero]

/-- Witness for C7 with the code's cap exceeded: history `[0, 1]`, cap 2. -/
theorem c7_history_bounded_fifo_witness :
    (1 ≤ 2)
    ∧ (updateMetricsHistory 2 [0, 1] (2 : Nat)).length ≤ 2
    ∧ updateMetricsHistory 2 [0, 1] (2 : Nat)
        = (([0, 1] : List Nat) ++ [2]).drop (([0, 1] : List Nat).length + 1 - 2) :=
  ⟨by decide, (c7_history_bounded_fifo 2 [0, 1] 2 (by decide)).1,
    (c7_history_bounded_fifo 2 [0, 1] 2 (by decide)).2⟩

/-- C8.  `validate_text_input` accepts exactly the texts that are nonempty
after stripping and whose (unstripped) length is at most the ceiling; in
particular a text of length `maxLen` passes and one of length
`maxLen + 1` fails, and a whitespace-only text fails. -/
theorem c8_validate_boundary (maxLen : Nat) (text : Str) :
    (∃ y, validate_text_input maxLen text = Except.ok y)
      ↔ (pyStrip text ≠ [] ∧ text.length ≤ maxLen) := by
  constructor
  · rintro ⟨y, hy⟩
    by_cases h1 : pyStrip text = []
    · simp [validate_text_input, h1] at hy
    · by_cases h2 : text.length > maxLen
      · simp [validate_text_input, h1, h2] at hy
      · exact ⟨h1, by omega⟩
  · rintro ⟨h1, h2⟩
    exact ⟨pyStrip text, by simp [validate_text_input, h1, Nat.not_lt.mpr h2]⟩

/-- C5 counterexample.  Updating the default configuration with
`temperature=5` raises the validation error, yet the configuration object
has been mutated and is left violating the temperature invariant: the
update is not atomic. -/
theorem c5_counterexample_update_not_atomic :
    (configUpdate defaultConfig [ConfigKV.temperature 5]).2
        = some "Invalid temperature"
    ∧ (configUpdate defaultConfig [ConfigKV.temperature 5]).1 ≠ defaultConfig
    ∧ (configUpdate defaultConfig [ConfigKV.temperature 5]).1.temperature = 5
    ∧ validateConfig (configUpdate defaultConfig [ConfigKV.temperature 5]).1
        = some "Invalid temperature" := by
  refine ⟨?_, ?_, ?_, ?_⟩ <;> decide

/-- C5 (amended).  `Config.update` first applies every requested change
and only then re-validates: when the update raises a validation error the
object keeps the new, possibly invariant-violating values (no rollback);
what does hold is that an update that completes without error always
leaves a configuration satisfying every `_validate_config` invariant. -/
theorem c5_update_validates_on_success (c : Config) (kvs : List ConfigKV)
    (h : (configUpdate c kvs).2 = none) :
    validateConfig (configUpdate c kvs).1 = none := by
  cases hu : updateLoop c kvs with
  | mk c' e =>
    cases e with
    | some err =>
        have h2 : (configUpdate c kvs).2 = some err := by
          simp [configUpdate, hu]
        rw [h2] at h
        exact absurd h (by simp)
    | none =>
        have h1 : (configUpdate c kvs).1 = c' := by simp [configUpdate, hu]
        have h2 : (configUpdate c kvs).2 = validateConfig c' := by
          simp [configUpdate, hu]
        rw [h1]
        rw [h2] at h
        exact h

/-- Witness for C5 (amended): an in-range port update succeeds and the
resulting configuration is valid. -/
theorem c5_update_validates_on_success_witness :
    (configUpdate defaultConfig [ConfigKV.port 9000]).2 = none
    ∧ validateConfig (configUpdate defaultConfig [ConfigKV.port 9000]).1
        = none :=
  ⟨by decide, c5_update_validates_on_success defaultConfig
    [ConfigKV.port 9000] (by decide)⟩

theorem pyWords_single_good (w : Str) (h : goodWord w) : pyWords w = [w] := by
  have := pyWords_join [w] (by intro x hx; rw [List.mem_singleton.mp hx]; exact h)
  rwa [joinWords_single] at this

theorem chunkLoop_long_chunk_single (cs : Nat) :
    ∀ ws cur len, (∀ w ∈ ws, goodWord w) → (∀ w ∈ cur, goodWord w) →
      (cur = [] → len = 0) →
      (cur ≠ [] →
        len = (joinWords cur).length ∨ len = (joinWords cur).length + 1) →
      (2 ≤ cur.length → len ≤ cs) →
      ∀ chunk ∈ chunkLoop cs ws cur len, cs < chunk.length →
        pyWords chunk = [chunk] := by
  intro ws
  induction ws with
  | nil =>
      intro cur len _ hcur _ hinv2 hinv3 chunk hmem hlong
      by_cases hc : cur = []
      · simp [chunkLoop, hc] at hmem
      · simp only [chunkLoop, hc, if_false, List.mem_singleton] at hmem
        subst hmem
        cases cur with
        | nil => exact absurd rfl hc
        | cons w rest =>
            cases rest with
            | nil =>
                rw [joinWords_single]
                exact pyWords_single_good w (hcur w (List.mem_cons_self w []))
            | cons w' rest' =>
                exfalso
                have hlen : len ≤ cs := hinv3 (by simp)
                rcases hinv2 hc with h | h <;> omega
  | cons w ws ih =>
      intro cur len hws hcur hinv1 hinv2 hinv3 chunk hmem hlong
      have hw : goodWord w := hws w (List.mem_cons_self w ws)
      have hws' : ∀ x ∈ ws, goodWord x := fun x hx =>
        hws x (List.mem_cons_of_mem w hx)
      have hgood1 : ∀ x ∈ [w], goodWord x := by
        intro x hx; rw [List.mem_singleton.mp hx]; exact hw
      by_cases hbr : len + (w.length + 1) > cs ∧ cur ≠ []
      · simp only [chunkLoop, if_pos hbr, List.mem_cons] at hmem
        rcases hmem with h | h
        · subst h
          cases cur with
          | nil => exact absurd rfl hbr.2
          | cons v rest =>
              cases rest with
              | nil =>
                  rw [joinWords_single]
                  exact pyWords_single_good v (hcur v (List.mem_cons_self v []))
              | cons v' rest' =>
                  exfalso
                  have hlen : len ≤ cs := hinv3 (by simp)
                  rcases hinv2 hbr.2 with hh | hh <;> omega
        · refine ih [w] w.length hws' hgood1 (by simp)
            (fun _ => Or.inl (by rw [joinWords_single])) (by simp) chunk h hlong
      · simp only [chunkLoop, if_neg hbr] at hmem
        by_cases hc : cur = []
        · subst hc
          have hlen0 : len = 0 := hinv1 rfl
          subst hlen0
          refine ih [w] (0 + (w.length + 1)) hws' hgood1 (by simp)
            (fun _ => Or.inr (by rw [joinWords_single]; omega)) (by simp) chunk ?_ hlong
          simpa using hmem
        · have hle : len + (w.length + 1) ≤ cs := by
            rcases not_and_or.mp hbr with h | h
            · omega
            · exact absurd (not_not.mp h) hc
          refine ih (cur ++ [w]) (len + (w.length + 1)) hws' ?_ ?_ ?_ ?_
            chunk hmem hlong
          · intro x hx
            rcases List.mem_append.mp hx with h | h
            · exact hcur x h
            · rw [List.mem_singleton.mp h]; exact hw
          · intro habs
            exact absurd habs (by simp [hc])
          · intro _
            have hjl := joinWords_append_single cur w hc
            rcases hinv2 hc with h | h
            · exact Or.inl (by omega)
            · exact Or.inr (by omega)
          · intro _; exact hle

/-- C10.  For every text longer than the chunk size, the words of the
chunks, concatenated in chunk order, are exactly the whitespace-separated
words of the input (no word lost, duplicated or split), and a chunk can
exceed the chunk size only by being a single overlong word. -/
theorem c10_chunk_text_word_preserving (cs : Nat) (text : Str)
    (h : cs < text.length) :
    ((chunk_text cs text).map pyWords).flatten = pyWords text
    ∧ ∀ chunk ∈ chunk_text cs text, cs < chunk.length →
        pyWords chunk = [chunk] := by
  have hne : ¬ text.length ≤ cs := by omega
  constructor
  · have := chunkLoop_flatten cs (pyWords text) [] 0 (pyWords_good text)
      (by simp)
    simpa [chunk_text, hne] using this
  · intro chunk hmem hlong
    refine chunkLoop_long_chunk_single cs (pyWords text) [] 0
      (pyWords_good text) (by simp) (fun _ => rfl)
      (fun habs => absurd rfl habs) (by simp) chunk ?_ hlong
    simpa [chunk_text, hne] using hmem

/-- Witness for C10 at chunk size 3 and input `aaaaa bb`, whose first
chunk is the single overlong word `aaaaa`. -/
theorem c10_chunk_text_word_preserving_witness :
    (3 < "aaaaa bb".data.length)
    ∧ ((chunk_text 3 "aaaaa bb".data).map pyWords).flatten
        = pyWords "aaaaa bb".data
    ∧ pyWords "aaaaa".data = ["aaaaa".data] :=
  ⟨by decide, (c10_chunk_text_word_preserving 3 "aaaaa bb".data (by decide)).1,
    (c10_chunk_text_word_preserving 3 "aaaaa bb".data (by decide)).2
      "aaaaa".data (by decide) (by decide)⟩

theorem summarizeChunkLoop_count (chat : Str → Str) (total : Nat) :
    ∀ chunks i, (summarizeChunkLoop chat total chunks i).2 = chunks.length := by
  intro chunks
  induction chunks with
  | nil => intro i; rfl
  | cons c rest ih =>
      intro i
      show (summarizeChunkLoop chat total rest (i + 1)).2 + 1
          = rest.length + 1
      rw [ih (i + 1)]

theorem summarizeChunkLoop_map (chat : Str → Str) (total : Nat) :
    ∀ chunks i, (summarizeChunkLoop chat total chunks i).1
      = chunks.mapIdx (fun j c => pyStrip (chat (chunkPrompt (i + j + 1) total c))) := by
  intro chunks
  induction chunks with
  | nil => intro i; rfl
  | cons c rest ih =>
      intro i
      show pyStrip (chat (chunkPrompt (i + 1) total c))
          :: (summarizeChunkLoop chat total rest (i + 1)).1
        = List.mapIdx
            (fun j c => pyStrip (chat (chunkPrompt (i + j + 1) total c)))
            (c :: rest)
      simp only [List.mapIdx_cons]
      rw [ih (i + 1)]
      have hf : (fun (j : Nat) (x : Str) =>
            pyStrip (chat (chunkPrompt (i + 1 + j + 1) total x)))
          = (fun (j : Nat) (x : Str) =>
          pyStrip (chat (chunkPrompt (i + (j + 1) + 1) total x))) := by
        funext j x
        have harith : i + 1 + j + 1 = i + (j + 1) + 1 := by omega
        rw [harith]
      rw [hf]

/-- C3.  `_summarize_text` makes exactly one chat-completion call for a
text within the chunk threshold; for a text that splits into `k > 1`
chunks it makes exactly `k` per-chunk calls plus one combine call, the
combine prompt receives the per-chunk summaries in chunk order (summary
`j` coming from chunk `j`), and every chunk is a sequence of whole words
of the input: the chunks' words concatenated in order are the input's
words. -/
theorem c3_summarize_call_structure (chat : Str → Str) (lengthArg : Str)
    (cs : Nat) (text : Str) :
    (text.length ≤ cs → (summarize_text chat lengthArg cs text).2 = 1)
    ∧ (cs < text.length → 1 < (chunk_text cs text).length →
        (summarize_text chat lengthArg cs text).2
            = (chunk_text cs text).length + 1
        ∧ (summarize_text chat lengthArg cs text).1
            = pyStrip (chat (combinePrompt lengthArg
                ((chunk_text cs text).mapIdx (fun j c =>
                  pyStrip (chat
                    (chunkPrompt (j + 1) (chunk_text cs text).length c))))))
        ∧ ((chunk_text cs text).map pyWords).flatten = pyWords text) := by
  constructor
  · intro h
    have hnot : ¬ text.length > cs := by omega
    simp [summarize_text, hnot]
  · intro h hk
    have hgt : text.length > cs := h
    have hmap := summarizeChunkLoop_map chat (chunk_text cs text).length
      (chunk_text cs text) 0
    have hcount := summarizeChunkLoop_count chat (chunk_text cs text).length
      (chunk_text cs text) 0
    have hzero : (fun (j : Nat) (c : Str) => pyStrip (chat
          (chunkPrompt (0 + j + 1) (chunk_text cs text).length c)))
        = (fun (j : Nat) (c : Str) => pyStrip (chat
          (chunkPrompt (j + 1) (chunk_text cs text).length c))) := by
      funext j c
      rw [Nat.zero_add]
    rw [hzero] at hmap
    have hlen1 : (summarizeChunkLoop chat (chunk_text cs text).length
        (chunk_text cs text) 0).1.length = (chunk_text cs text).length := by
      rw [hmap]
      simp
    have hif : (summarizeChunkLoop chat (chunk_text cs text).length
        (chunk_text cs text) 0).1.length > 1 := by omega
    refine ⟨?_, ?_, ?_⟩
    · simp only [summarize_text, if_pos hgt, if_pos hif]
      rw [hcount]
    · simp only [summarize_text, if_pos hgt, if_pos hif]
      rw [hmap]
    · have := chunkLoop_flatten cs (pyWords text) [] 0 (pyWords_good text)
        (by simp)
      simpa [chunk_text, show ¬ text.length ≤ cs by omega] using this

/-- Witness for C3 at chunk size 5 and input `aa bb cc`, which splits
into the two chunks `aa` and `bb cc`: three chat calls in total. -/
theorem c3_summarize_call_structure_witness :
    (5 < "aa bb cc".data.length)
    ∧ (1 < (chunk_text 5 "aa bb cc".data).length)
    ∧ (summarize_text (fun _ => "S".data) "short".data 5 "aa bb cc".data).2
        = (chunk_text 5 "aa bb cc".data).length + 1 :=
  ⟨by decide, by decide,
    ((c3_summarize_call_structure (fun _ => "S".data) "short".data 5
      "aa bb cc".data).2 (by decide) (by decide)).1⟩

theorem stripEnd_take : ∀ l : Str, ∃ k, stripEnd l = l.take k := by
  intro l
  induction l with
  | nil => exact ⟨0, rfl⟩
  | cons c cs ih =>
      obtain ⟨k, hk⟩ := ih
      cases hse : stripEnd cs with
      | nil =>
          by_cases hsp : pySpace c = true
          · exact ⟨0, by simp [stripEnd, hse, hsp]⟩
          · exact ⟨1, by simp [stripEnd, hse, hsp]⟩
      | cons d ds =>
          refine ⟨k + 1, ?_⟩
          have : stripEnd (c :: cs) = c :: d :: ds := by
            simp [stripEnd, hse]
          rw [this, List.take_succ_cons, ← hk, hse]

theorem stripEnd_cons_of_ne (c : Char) (cs : Str) (d : Char) (ds : Str)
    (h : stripEnd cs = d :: ds) : stripEnd (c :: cs) = c :: d :: ds := by
  show (match stripEnd cs with
    | [] => if pySpace c = true then [] else [c]
    | r => c :: r) = c :: d :: ds
  rw [h]

theorem stripEnd_idem : ∀ l : Str, stripEnd (stripEnd l) = stripEnd l := by
  intro l
  induction l with
  | nil => rfl
  | cons c cs ih =>
      cases hse : stripEnd cs with
      | nil =>
          by_cases hsp : pySpace c = true
          · simp [stripEnd, hse, hsp]
          · simp [stripEnd, hse, hsp]
      | cons d ds =>
          have h2 : stripEnd (d :: ds) = d :: ds := by
            rw [← hse, ih, hse]
          rw [stripEnd_cons_of_ne c cs d ds hse,
            stripEnd_cons_of_ne c (d :: ds) d ds h2]

theorem dropWhile_head_false (p : Char → Bool) :
    ∀ (l : Str) (c : Char), (l.dropWhile p).head? = some c → p c = false := by
  intro l
  induction l with
  | nil => intro c h; simp at h
  | cons d ds ih =>
      intro c h
      by_cases hd : p d = true
      · rw [List.dropWhile_cons_of_pos hd] at h
        exact ih c h
      · rw [List.dropWhile_cons_of_neg hd] at h
        simp at h
        rw [← h]
        cases hb : p d
        · rfl
        · exact absurd hb hd

theorem dropWhile_of_head_false (p : Char → Bool) (l : Str)
    (h : ∀ c, l.head? = some c → p c = false) : l.dropWhile p = l := by
  cases l with
  | nil => rfl
  | cons c cs =>
      have hc : p c = false := h c rfl
      simp [List.dropWhile_cons, hc]

theorem pyStrip_idem (l : Str) : pyStrip (pyStrip l) = pyStrip l := by
  unfold pyStrip stripStart
  have hhead : ∀ c, (stripEnd (l.dropWhile pySpace)).head? = some c →
      pySpace c = false := by
    intro c hc
    obtain ⟨k, hk⟩ := stripEnd_take (l.dropWhile pySpace)
    rw [hk] at hc
    cases hdw : l.dropWhile pySpace with
    | nil => rw [hdw] at hc; simp at hc
    | cons d ds =>
        rw [hdw] at hc
        cases k with
        | zero => simp at hc
        | succ k' =>
            rw [List.take_succ_cons] at hc
            simp at hc
            rw [← hc]
            exact dropWhile_head_false pySpace l d (by rw [hdw]; rfl)
  rw [dropWhile_of_head_false pySpace _ hhead, stripEnd_idem]

theorem bnot_true {b : Bool} (h : ¬ b = true) : b = false := by
  cases b
  · rfl
  · exact absurd rfl h

theorem band_left {a b : Bool} (h : (a && b) = true) : a = true :=
  ((Bool.and_eq_true a b).mp h).1

theorem band_right {a b : Bool} (h : (a && b) = true) : b = true :=
  ((Bool.and_eq_true a b).mp h).2

theorem band_intro {a b : Bool} (h1 : a = true) (h2 : b = true) :
    (a && b) = true := by
  rw [h1, h2]
  rfl

/-- No whitespace character other than a plain space occurs. -/
def spacesBlank (l : Str) : Bool := l.all (fun c => !pySpace c || c == ' ')

/-- No two adjacent whitespace characters occur. -/
def noDbl : Str → Bool
  | [] => true
  | [_] => true
  | c :: c' :: cs => (!(pySpace c && pySpace c')) && noDbl (c' :: cs)

/-- The shape of `re.sub(r'\s+', ' ')` output: only single plain spaces. -/
def collapsed (l : Str) : Bool := spacesBlank l && noDbl l

theorem noDbl_tail : ∀ (c : Char) (cs : Str), noDbl (c :: cs) = true →
    noDbl cs = true := by
  intro c cs h
  cases cs with
  | nil => rfl
  | cons d ds => exact band_right h

theorem collapsed_tail (c : Char) (cs : Str) (h : collapsed (c :: cs) = true) :
    collapsed cs = true := by
  have h1 : spacesBlank (c :: cs) = true := band_left h
  have h2 : noDbl (c :: cs) = true := band_right h
  refine band_intro ?_ (noDbl_tail c cs h2)
  simp only [spacesBlank, List.all_cons, Bool.and_eq_true] at h1
  exact h1.2

theorem collapseWsAux_false_cons (c : Char) (cs : Str) :
    collapseWsAux false (c :: cs)
      = if pySpace c then ' ' :: collapseWsAux true cs
        else c :: collapseWsAux false cs := rfl

theorem collapseWsAux_true_cons (c : Char) (cs : Str) :
    collapseWsAux true (c :: cs)
      = if pySpace c then collapseWsAux true cs
        else c :: collapseWsAux false cs := rfl

theorem collapsed_cons_nonspace (c : Char) (l : Str) (hc : pySpace c = false)
    (h : collapsed l = true) : collapsed (c :: l) = true := by
  have h1 : spacesBlank l = true := band_left h
  have h2 : noDbl l = true := band_right h
  refine band_intro ?_ ?_
  · simp only [spacesBlank, List.all_cons]
    refine band_intro ?_ h1
    rw [hc]
    rfl
  · cases l with
    | nil => rfl
    | cons d ds =>
        show ((!(pySpace c && pySpace d)) && noDbl (d :: ds)) = true
        rw [hc]
        simpa using h2

theorem collapsed_cons_space (l : Str)
    (hl : ∀ d, l.head? = some d → pySpace d = false)
    (h : collapsed l = true) : collapsed (' ' :: l) = true := by
  have h1 : spacesBlank l = true := band_left h
  have h2 : noDbl l = true := band_right h
  refine band_intro ?_ ?_
  · simp only [spacesBlank, List.all_cons]
    refine band_intro ?_ h1
    rfl
  · cases l with
    | nil => rfl
    | cons d ds =>
        have hd : pySpace d = false := hl d rfl
        show ((!(pySpace ' ' && pySpace d)) && noDbl (d :: ds)) = true
        rw [hd]
        simpa using h2

theorem collapseWsAux_key (l : Str) :
    (∀ b, collapsed (collapseWsAux b l) = true)
      ∧ (∀ c, (collapseWsAux true l).head? = some c → pySpace c = false) := by
  induction l with
  | nil =>
      constructor
      · intro b; cases b <;> rfl
      · intro c h; simp [collapseWsAux] at h
  | cons c cs ih =>
      obtain ⟨ihc, ihh⟩ := ih
      by_cases hsp : pySpace c = true
      · constructor
        · intro b
          cases b
          · rw [collapseWsAux_false_cons, if_pos hsp]
            exact collapsed_cons_space _ ihh (ihc true)
          · rw [collapseWsAux_true_cons, if_pos hsp]
            exact ihc true
        · intro c' h
          rw [collapseWsAux_true_cons, if_pos hsp] at h
          exact ihh c' h
      · have hsp' : pySpace c = false := bnot_true hsp
        constructor
        · intro b
          cases b
          · rw [collapseWsAux_false_cons, if_neg hsp]
            exact collapsed_cons_nonspace c _ hsp' (ihc false)
          · rw [collapseWsAux_true_cons, if_neg hsp]
            exact collapsed_cons_nonspace c _ hsp' (ihc false)
        · intro c' h
          rw [collapseWsAux_true_cons, if_neg hsp] at h
          simp only [List.head?_cons, Option.some.injEq] at h
          rw [← h]
          exact hsp'

theorem collapsed_fix_key (l : Str) :
    (collapsed l = true → collapseWsAux false l = l)
      ∧ (collapsed l = true →
          (∀ c, l.head? = some c → pySpace c = false) →
          collapseWsAux true l = l) := by
  induction l with
  | nil => exact ⟨fun _ => rfl, fun _ _ => rfl⟩
  | cons c cs ih =>
      obtain ⟨ihf, iht⟩ := ih
      constructor
      · intro h
        have hcs : collapsed cs = true := collapsed_tail c cs h
        by_cases hsp : pySpace c = true
        · have hc' : c = ' ' := by
            have h1 : spacesBlank (c :: cs) = true := band_left h
            simp only [spacesBlank, List.all_cons, Bool.and_eq_true] at h1
            have hcc := h1.1
            rw [hsp] at hcc
            simpa using hcc
          have hhead : ∀ d, cs.head? = some d → pySpace d = false := by
            intro d hd
            cases cs with
            | nil => simp at hd
            | cons e es =>
                simp only [List.head?_cons, Option.some.injEq] at hd
                subst hd
                have h2 : noDbl (c :: e :: es) = true := band_right h
                have hpair : (!(pySpace c && pySpace e)) = true := band_left h2
                rw [hsp] at hpair
                simpa using hpair
          rw [collapseWsAux_false_cons, if_pos hsp, iht hcs hhead, hc']
        · rw [collapseWsAux_false_cons, if_neg hsp, ihf hcs]
      · intro h hhead
        have hsp' : pySpace c = false := hhead c rfl
        have hsp : ¬ pySpace c = true := by
          rw [hsp']
          exact Bool.false_ne_true
        rw [collapseWsAux_true_cons, if_neg hsp,
          ihf (collapsed_tail c cs h)]

theorem noDbl_dropWhile (p : Char → Bool) :
    ∀ l : Str, noDbl l = true → noDbl (l.dropWhile p) = true := by
  intro l
  induction l with
  | nil => intro _; rfl
  | cons c cs ih =>
      intro h
      by_cases hc : p c = true
      · rw [List.dropWhile_cons_of_pos hc]
        exact ih (noDbl_tail c cs h)
      · rw [List.dropWhile_cons_of_neg hc]
        exact h

theorem noDbl_take : ∀ (l : Str) (n : Nat), noDbl l = true →
    noDbl (l.take n) = true := by
  intro l
  induction l with
  | nil =>
      intro n _
      rw [List.take_nil]
      rfl
  | cons c cs ih =>
      intro n h
      cases n with
      | zero => rfl
      | succ n' =>
          rw [List.take_succ_cons]
          cases cs with
          | nil =>
              rw [List.take_nil]
              rfl
          | cons d ds =>
              cases n' with
              | zero => rfl
              | succ n'' =>
                  have hpair : (!(pySpace c && pySpace d)) = true :=
                    band_left h
                  have htail : noDbl ((d :: ds).take (n'' + 1)) = true :=
                    ih (n'' + 1) (noDbl_tail c (d :: ds) h)
                  rw [List.take_succ_cons] at htail ⊢
                  exact band_intro hpair htail

theorem spacesBlank_sublist {l l' : Str} (hs : l'.Sublist l)
    (h : spacesBlank l = true) : spacesBlank l' = true := by
  simp only [spacesBlank, List.all_eq_true] at h ⊢
  intro c hc
  exact h c (hs.subset hc)

theorem collapsed_pyStrip (l : Str) (h : collapsed l = true) :
    collapsed (pyStrip l) = true := by
  have h1 : collapsed (l.dropWhile pySpace) = true := by
    refine band_intro ?_ (noDbl_dropWhile pySpace l (band_right h))
    exact spacesBlank_sublist (List.dropWhile_sublist pySpace)
      (band_left h)
  obtain ⟨k, hk⟩ := stripEnd_take (l.dropWhile pySpace)
  unfold pyStrip stripStart
  rw [hk]
  refine band_intro ?_ (noDbl_take _ k (band_right h1))
  exact spacesBlank_sublist (List.take_sublist k _) (band_left h1)

/-- The whitespace-normalization transform is idempotent. -/
theorem normWs_idem (l : Str) : normWs (normWs l) = normWs l := by
  unfold normWs
  have hcoll : collapsed (pyStrip (collapseWs l)) = true :=
    collapsed_pyStrip _ ((collapseWsAux_key l).1 false)
  have hfix : collapseWs (pyStrip (collapseWs l)) = pyStrip (collapseWs l) :=
    (collapsed_fix_key _).1 hcoll
  rw [show collapseWs (pyStrip (collapseWs l)) = pyStrip (collapseWs l)
    from hfix]
  exact pyStrip_idem _

theorem afterGt_some_len :
    ∀ (l : Str) (r : Str), afterGt l = some r → r.length < l.length := by
  intro l
  induction l with
  | nil => intro r h; simp [afterGt] at h
  | cons c cs ih =>
      intro r h
      by_cases hc : c = '>'
      · simp only [afterGt, if_pos hc, Option.some.injEq] at h
        rw [← h]
        simp
      · simp only [afterGt, if_neg hc] at h
        exact Nat.lt_trans (ih r h) (by simp)

theorem afterGt_subset :
    ∀ (l : Str) (r : Str), afterGt l = some r → ∀ c ∈ r, c ∈ l := by
  intro l
  induction l with
  | nil => intro r h; simp [afterGt] at h
  | cons c cs ih =>
      intro r h d hd
      by_cases hc : c = '>'
      · simp only [afterGt, if_pos hc, Option.some.injEq] at h
        rw [← h] at hd
        exact List.mem_cons_of_mem c hd
      · simp only [afterGt, if_neg hc] at h
        exact List.mem_cons_of_mem c (ih r h d hd)

theorem afterGt_none_iff : ∀ l : Str, afterGt l = none ↔ '>' ∉ l := by
  intro l
  induction l with
  | nil => simp [afterGt]
  | cons c cs ih =>
      by_cases hc : c = '>'
      · simp [afterGt, hc]
      · simp only [afterGt, if_neg hc, ih, List.mem_cons]
        constructor
        · intro h hmem
          rcases hmem with h1 | h1
          · exact hc h1.symm
          · exact h h1
        · intro h h1
          exact h (Or.inr h1)

theorem findClose_none_char (l : Str) (h : '>' ∉ l) : findClose l = none := by
  cases l with
  | nil => rfl
  | cons c cs =>
      have hc : ¬ c = '>' := fun hcc => h (hcc ▸ List.mem_cons_self c cs)
      simp only [findClose, if_neg hc]
      exact (afterGt_none_iff cs).mpr (fun hm => h (List.mem_cons_of_mem c hm))

theorem findClose_none_cases (l : Str) (h : findClose l = none) :
    l = [] ∨ (∃ cs, l = '>' :: cs) ∨ '>' ∉ l := by
  cases l with
  | nil => exact Or.inl rfl
  | cons c cs =>
      by_cases hc : c = '>'
      · exact Or.inr (Or.inl ⟨cs, by rw [hc]⟩)
      · refine Or.inr (Or.inr ?_)
        simp only [findClose, if_neg hc] at h
        intro hmem
        rcases List.mem_cons.mp hmem with h1 | h1
        · exact hc h1.symm
        · exact (afterGt_none_iff cs).mp h h1

theorem findClose_subset (l : Str) (r : Str) (h : findClose l = some r) :
    ∀ c ∈ r, c ∈ l := by
  cases l with
  | nil => simp [findClose] at h
  | cons c cs =>
      by_cases hc : c = '>'
      · simp [findClose, hc] at h
      · simp only [findClose, if_neg hc] at h
        intro d hd
        exact List.mem_cons_of_mem c (afterGt_subset cs r h d hd)

theorem findClose_some_len (l : Str) (r : Str) (h : findClose l = some r) :
    r.length < l.length := by
  cases l with
  | nil => simp [findClose] at h
  | cons c cs =>
      by_cases hc : c = '>'
      · simp [findClose, hc] at h
      · simp only [findClose, if_neg hc] at h
        exact Nat.lt_trans (afterGt_some_len cs r h) (by simp)

/-- The output shape of `re.sub(r'<[^>]+>', '', text)`: no position opens a
complete `<...>` tag. -/
def untagged : Str → Bool
  | [] => true
  | c :: cs => (if c = '<' then (findClose cs).isNone else true) && untagged cs

theorem untagged_cons (c : Char) (cs : Str) :
    untagged (c :: cs)
      = ((if c = '<' then (findClose cs).isNone else true) && untagged cs) := rfl

theorem stripTagsF_nil (fuel : Nat) : stripTagsF fuel [] = [] := by
  cases fuel <;> rfl

theorem stripTagsF_cons_lt (fuel : Nat) (cs : Str) (rest : Str)
    (h : findClose cs = some rest) :
    stripTagsF (fuel + 1) ('<' :: cs) = stripTagsF fuel rest := by
  show (if '<' = '<' then
      match findClose cs with
      | some rest => stripTagsF fuel rest
      | none => '<' :: stripTagsF fuel cs
    else '<' :: stripTagsF fuel cs) = stripTagsF fuel rest
  rw [if_pos rfl, h]

theorem stripTagsF_cons_lt_none (fuel : Nat) (cs : Str)
    (h : findClose cs = none) :
    stripTagsF (fuel + 1) ('<' :: cs) = '<' :: stripTagsF fuel cs := by
  show (if '<' = '<' then
      match findClose cs with
      | some rest => stripTagsF fuel rest
      | none => '<' :: stripTagsF fuel cs
    else '<' :: stripTagsF fuel cs) = '<' :: stripTagsF fuel cs
  rw [if_pos rfl, h]

theorem stripTagsF_cons_ne (fuel : Nat) (c : Char) (cs : Str)
    (h : ¬ c = '<') :
    stripTagsF (fuel + 1) (c :: cs) = c :: stripTagsF fuel cs := by
  show (if c = '<' then
      match findClose cs with
      | some rest => stripTagsF fuel rest
      | none => c :: stripTagsF fuel cs
    else c :: stripTagsF fuel cs) = c :: stripTagsF fuel cs
  rw [if_neg h]

theorem stripTagsF_subset :
    ∀ (fuel : Nat) (l : Str) (c : Char), c ∈ stripTagsF fuel l → c ∈ l := by
  intro fuel
  induction fuel with
  | zero => intro l c h; exact h
  | succ fuel ih =>
      intro l c h
      cases l with
      | nil => rw [stripTagsF_nil] at h; simp at h
      | cons d ds =>
          by_cases hd : d = '<'
          · subst hd
            cases hfc : findClose ds with
            | some rest =>
                rw [stripTagsF_cons_lt fuel ds rest hfc] at h
                exact List.mem_cons_of_mem _
                  (findClose_subset ds rest hfc c (ih rest c h))
            | none =>
                rw [stripTagsF_cons_lt_none fuel ds hfc] at h
                rcases List.mem_cons.mp h with h1 | h1
                · exact h1 ▸ List.mem_cons_self _ _
                · exact List.mem_cons_of_mem _ (ih ds c h1)
          · rw [stripTagsF_cons_ne fuel d ds hd] at h
            rcases List.mem_cons.mp h with h1 | h1
            · exact h1 ▸ List.mem_cons_self _ _
            · exact List.mem_cons_of_mem _ (ih ds c h1)

theorem stripTagsF_len :
    ∀ (fuel : Nat) (l : Str), (stripTagsF fuel l).length ≤ l.length := by
  intro fuel
  induction fuel with
  | zero => intro l; exact Nat.le_refl _
  | succ fuel ih =>
      intro l
      cases l with
      | nil => rw [stripTagsF_nil]
      | cons d ds =>
          by_cases hd : d = '<'
          · subst hd
            cases hfc : findClose ds with
            | some rest =>
                rw [stripTagsF_cons_lt fuel ds rest hfc]
                have h1 := ih rest
                have h2 := findClose_some_len ds rest hfc
                simp only [List.length_cons]
                omega
            | none =>
                rw [stripTagsF_cons_lt_none fuel ds hfc]
                simp only [List.length_cons]
                exact Nat.succ_le_succ (ih ds)
          · rw [stripTagsF_cons_ne fuel d ds hd]
            simp only [List.length_cons]
            exact Nat.succ_le_succ (ih ds)

theorem findClose_stripTagsF_none (fuel : Nat) (cs : Str)
    (h : findClose cs = none) : findClose (stripTagsF fuel cs) = none := by
  rcases findClose_none_cases cs h with h1 | ⟨cs', h1⟩ | h1
  · subst h1; rw [stripTagsF_nil]; rfl
  · subst h1
    cases fuel with
    | zero => exact h
    | succ fuel =>
        rw [stripTagsF_cons_ne fuel '>' cs' (by decide)]
        rfl
  · exact findClose_none_char _
      (fun hm => h1 (stripTagsF_subset fuel cs '>' hm))

theorem untagged_stripTagsF :
    ∀ (fuel : Nat) (l : Str), l.length ≤ fuel →
      untagged (stripTagsF fuel l) = true := by
  intro fuel
  induction fuel with
  | zero =>
      intro l h
      have hl : l = [] := List.length_eq_zero.mp (Nat.le_zero.mp h)
      subst hl
      rfl
  | succ fuel ih =>
      intro l h
      cases l with
      | nil => rw [stripTagsF_nil]; rfl
      | cons d ds =>
          have hds : ds.length ≤ fuel := by
            simp only [List.length_cons] at h
            omega
          by_cases hd : d = '<'
          · subst hd
            cases hfc : findClose ds with
            | some rest =>
                rw [stripTagsF_cons_lt fuel ds rest hfc]
                have := findClose_some_len ds rest hfc
                exact ih rest (by omega)
            | none =>
                rw [stripTagsF_cons_lt_none fuel ds hfc, untagged_cons]
                refine band_intro ?_ (ih ds hds)
                rw [if_pos rfl, findClose_stripTagsF_none fuel ds hfc]
                rfl
          · rw [stripTagsF_cons_ne fuel d ds hd, untagged_cons]
            refine band_intro ?_ (ih ds hds)
            rw [if_neg hd]

theorem stripTagsF_fix :
    ∀ (fuel : Nat) (l : Str), l.length ≤ fuel → untagged l = true →
      stripTagsF fuel l = l := by
  intro fuel
  induction fuel with
  | zero =>
      intro l h _
      have hl : l = [] := List.length_eq_zero.mp (Nat.le_zero.mp h)
      subst hl
      rfl
  | succ fuel ih =>
      intro l h hu
      cases l with
      | nil => exact stripTagsF_nil _
      | cons d ds =>
          rw [untagged_cons] at hu
          have hcond := band_left hu
          have hds := band_right hu
          have hlen : ds.length ≤ fuel := by
            simp only [List.length_cons] at h
            omega
          by_cases hd : d = '<'
          · rw [if_pos hd] at hcond
            have hfc : findClose ds = none := by
              cases hfc : findClose ds
              · rfl
              · rw [hfc] at hcond; simp at hcond
            subst hd
            rw [stripTagsF_cons_lt_none fuel ds hfc, ih ds hlen hds]
          · rw [stripTagsF_cons_ne fuel d ds hd, ih ds hlen hds]

theorem collapseWsAux_chars :
    ∀ (l : Str) (b : Bool) (c : Char),
      c ∈ collapseWsAux b l → c ∈ l ∨ c = ' ' := by
  intro l
  induction l with
  | nil => intro b c h; cases b <;> simp [collapseWsAux] at h
  | cons d ds ih =>
      intro b c h
      by_cases hsp : pySpace d = true
      · cases b
        · rw [collapseWsAux_false_cons, if_pos hsp] at h
          rcases List.mem_cons.mp h with h1 | h1
          · exact Or.inr h1
          · rcases ih true c h1 with h2 | h2
            · exact Or.inl (List.mem_cons_of_mem d h2)
            · exact Or.inr h2
        · rw [collapseWsAux_true_cons, if_pos hsp] at h
          rcases ih true c h with h2 | h2
          · exact Or.inl (List.mem_cons_of_mem d h2)
          · exact Or.inr h2
      · have hrw : collapseWsAux b (d :: ds) = d :: collapseWsAux false ds := by
          cases b
          · rw [collapseWsAux_false_cons, if_neg hsp]
          · rw [collapseWsAux_true_cons, if_neg hsp]
        rw [hrw] at h
        rcases List.mem_cons.mp h with h1 | h1
        · exact Or.inl (h1 ▸ List.mem_cons_self _ _)
        · rcases ih false c h1 with h2 | h2
          · exact Or.inl (List.mem_cons_of_mem d h2)
          · exact Or.inr h2

theorem findClose_none_collapse (cs : Str) (b : Bool)
    (h : findClose cs = none) : findClose (collapseWsAux b cs) = none := by
  rcases findClose_none_cases cs h with h1 | ⟨cs', h1⟩ | h1
  · subst h1
    cases b <;> rfl
  · subst h1
    have hsp : ¬ pySpace '>' = true := by decide
    cases b
    · rw [collapseWsAux_false_cons, if_neg hsp]
      rfl
    · rw [collapseWsAux_true_cons, if_neg hsp]
      rfl
  · refine findClose_none_char _ (fun hm => ?_)
    rcases collapseWsAux_chars cs b '>' hm with h2 | h2
    · exact h1 h2
    · simp at h2

theorem untagged_collapseWsAux :
    ∀ (l : Str) (b : Bool), untagged l = true →
      untagged (collapseWsAux b l) = true := by
  intro l
  induction l with
  | nil => intro b _; cases b <;> rfl
  | cons c cs ih =>
      intro b h
      rw [untagged_cons] at h
      have hcond := band_left h
      have hcs := band_right h
      by_cases hsp : pySpace c = true
      · cases b
        · rw [collapseWsAux_false_cons, if_pos hsp, untagged_cons]
          refine band_intro ?_ (ih true hcs)
          rw [if_neg (by decide)]
        · rw [collapseWsAux_true_cons, if_pos hsp]
          exact ih true hcs
      · have hrw : collapseWsAux b (c :: cs) = c :: collapseWsAux false cs := by
          cases b
          · rw [collapseWsAux_false_cons, if_neg hsp]
          · rw [collapseWsAux_true_cons, if_neg hsp]
        rw [hrw, untagged_cons]
        refine band_intro ?_ (ih false hcs)
        by_cases hc : c = '<'
        · rw [if_pos hc]
          rw [if_pos hc] at hcond
          have hfc : findClose cs = none := by
            cases hfc : findClose cs
            · rfl
            · rw [hfc] at hcond; simp at hcond
          rw [findClose_none_collapse cs false hfc]
          rfl
        · rw [if_neg hc]

theorem untagged_dropWhile (p : Char → Bool) :
    ∀ l : Str, untagged l = true → untagged (l.dropWhile p) = true := by
  intro l
  induction l with
  | nil => intro h; exact h
  | cons c cs ih =>
      intro h
      by_cases hc : p c = true
      · rw [List.dropWhile_cons_of_pos hc]
        rw [untagged_cons] at h
        exact ih (band_right h)
      · rw [List.dropWhile_cons_of_neg hc]
        exact h

theorem findClose_none_take (cs : Str) (n : Nat) (h : findClose cs = none) :
    findClose (cs.take n) = none := by
  rcases findClose_none_cases cs h with h1 | ⟨cs', h1⟩ | h1
  · subst h1
    rw [List.take_nil]
    rfl
  · subst h1
    cases n with
    | zero => rfl
    | succ n' => rw [List.take_succ_cons]; rfl
  · exact findClose_none_char _ (fun hm => h1 (List.take_subset n cs hm))

theorem untagged_take :
    ∀ (l : Str) (n : Nat), untagged l = true → untagged (l.take n) = true := by
  intro l
  induction l with
  | nil => intro n _; rw [List.take_nil]; rfl
  | cons c cs ih =>
      intro n h
      cases n with
      | zero => rfl
      | succ n' =>
          rw [List.take_succ_cons, untagged_cons]
          rw [untagged_cons] at h
          have hcond := band_left h
          refine band_intro ?_ (ih n' (band_right h))
          by_cases hc : c = '<'
          · rw [if_pos hc]
            rw [if_pos hc] at hcond
            have hfc : findClose cs = none := by
              cases hfc : findClose cs
              · rfl
              · rw [hfc] at hcond; simp at hcond
            rw [findClose_none_take cs n' hfc]
            rfl
          · rw [if_neg hc]

theorem untagged_pyStrip (l : Str) (h : untagged l = true) :
    untagged (pyStrip l) = true := by
  obtain ⟨k, hk⟩ := stripEnd_take (l.dropWhile pySpace)
  unfold pyStrip stripStart
  rw [hk]
  exact untagged_take _ k (untagged_dropWhile pySpace l h)

theorem collapseWsAux_len :
    ∀ (l : Str) (b : Bool), (collapseWsAux b l).length ≤ l.length := by
  intro l
  induction l with
  | nil => intro b; cases b <;> simp [collapseWsAux]
  | cons c cs ih =>
      intro b
      by_cases hsp : pySpace c = true
      · cases b
        · rw [collapseWsAux_false_cons, if_pos hsp]
          simpa using ih true
        · rw [collapseWsAux_true_cons, if_pos hsp]
          exact Nat.le_trans (ih true) (by simp)
      · have hrw : collapseWsAux b (c :: cs) = c :: collapseWsAux false cs := by
          cases b
          · rw [collapseWsAux_false_cons, if_neg hsp]
          · rw [collapseWsAux_true_cons, if_neg hsp]
        rw [hrw]
        simpa using ih false

theorem pyStrip_len (l : Str) : (pyStrip l).length ≤ l.length := by
  obtain ⟨k, hk⟩ := stripEnd_take (l.dropWhile pySpace)
  unfold pyStrip stripStart
  rw [hk]
  calc ((l.dropWhile pySpace).take k).length
      ≤ (l.dropWhile pySpace).length := by
        rw [List.length_take]
        omega
    _ ≤ l.length := (List.dropWhile_sublist pySpace).length_le

theorem validate_ok_inv (maxLen : Nat) (text y : Str)
    (h : validate_text_input maxLen text = Except.ok y) :
    y = pyStrip text ∧ pyStrip text ≠ [] ∧ text.length ≤ maxLen := by
  unfold validate_text_input at h
  by_cases h1 : pyStrip text = []
  · rw [if_pos h1] at h
    simp at h
  · rw [if_neg h1] at h
    by_cases h2 : text.length > maxLen
    · rw [if_pos h2] at h
      simp at h
    · rw [if_neg h2] at h
      simp only [Except.ok.injEq] at h
      exact ⟨h.symm, h1, by omega⟩

/-- HTML-tag stripping (default arguments) is idempotent whenever its
result is nonempty (the empty string is rejected by re-validation). -/
theorem remove_html_tags_idem (maxLen : Nat) (x y : Str)
    (h : remove_html_tags maxLen x = Except.ok y) (hy : y ≠ []) :
    remove_html_tags maxLen y = Except.ok y := by
  unfold remove_html_tags at h
  cases hv : validate_text_input maxLen x with
  | error e =>
      rw [hv] at h
      simp [Bind.bind, Except.bind] at h
  | ok t =>
      rw [hv] at h
      simp only [Bind.bind, Except.bind, pure, Except.pure,
        Except.ok.injEq] at h
      obtain ⟨ht, hne, hxlen⟩ := validate_ok_inv maxLen x t hv
      subst ht
      have hyval : y = pyStrip (collapseWs (stripTags (pyStrip x))) := by
        rw [← h]
        rfl
      have hystrip : pyStrip y = y := by
        rw [hyval]
        exact pyStrip_idem _
      have hylen : y.length ≤ x.length := by
        have l1 := pyStrip_len (collapseWs (stripTags (pyStrip x)))
        have l2 := collapseWsAux_len (stripTags (pyStrip x)) false
        have l3 := stripTagsF_len (pyStrip x).length (pyStrip x)
        have l4 := pyStrip_len x
        rw [hyval]
        unfold collapseWs at *
        unfold stripTags at *
        omega
      have hyuntag : untagged y = true := by
        rw [hyval]
        exact untagged_pyStrip _ (untagged_collapseWsAux _ false
          (untagged_stripTagsF _ _ (Nat.le_refl _)))
      have hycoll : collapsed y = true := by
        rw [hyval]
        exact collapsed_pyStrip _
          ((collapseWsAux_key (stripTags (pyStrip x))).1 false)
      have hval : validate_text_input maxLen y = Except.ok y := by
        unfold validate_text_input
        rw [if_neg (by rw [hystrip]; exact hy),
          if_neg (by omega), hystrip]
      show (validate_text_input maxLen y >>= fun t =>
        pure (normWs (stripTags t))) = Except.ok y
      rw [hval]
      have htags : stripTags y = y :=
        stripTagsF_fix y.length y (Nat.le_refl _) hyuntag
      have hnorm : normWs y = y := by
        unfold normWs
        rw [show collapseWs y = y from (collapsed_fix_key y).1 hycoll]
        exact hystrip
      simp only [Bind.bind, Except.bind, pure, Except.pure, htags, hnorm]

/-- C4 counterexample.  `_clean_text` with default arguments is not
idempotent: the repeated-punctuation collapse maps `.....` to `..` on a
first pass and `..` to `.` on a second, so `f(f(x)) ≠ f(x)`. -/
theorem c4_counterexample_clean_text_not_idempotent :
    clean_text 100000 { text := ".....".data } = Except.ok "..".data
    ∧ clean_text 100000 { text := "..".data } = Except.ok ".".data
    ∧ ("..".data : Str) ≠ ".".data := by
  refine ⟨by decide, by decide, by decide⟩

/-- C4 (amended).  Of the local transforms, whitespace normalization
(collapse-and-trim) is idempotent on every input, and HTML-tag stripping
with default arguments is idempotent on every input whose result is
nonempty (an empty result is rejected by input re-validation); but
`_clean_text` with default arguments is not idempotent, and the default
diacritic-removal path delegates to the external `unidecode` library,
outside this code base. -/
theorem c4_local_transform_idempotence :
    (∀ l : Str, normWs (normWs l) = normWs l)
    ∧ (∀ (maxLen : Nat) (x y : Str),
        remove_html_tags maxLen x = Except.ok y → y ≠ [] →
        remove_html_tags maxLen y = Except.ok y) :=
  ⟨normWs_idem, remove_html_tags_idem⟩

/-- Witness for C4 (amended) at `<p>hi</p> there`, whose cleaned form
`hi there` is a fixed point. -/
theorem c4_local_transform_idempotence_witness :
    remove_html_tags 100 "<p>hi</p> there".data = Except.ok "hi there".data
    ∧ "hi there".data ≠ ([] : Str)
    ∧ remove_html_tags 100 "hi there".data = Except.ok "hi there".data :=
  ⟨by decide, by decide,
    c4_local_transform_idempotence.2 100 "<p>hi</p> there".data
      "hi there".data (by decide) (by decide)⟩

/-- C1 counterexample.  Registering two agents that both advertise a tool
named `dup_tool` completes without error — `_register_agent` performs no
tool-name-uniqueness check — and leaves a registry whose combined tool-name
list has a duplicate, violating the claimed invariant. -/
theorem c1_counterexample_duplicate_tool_accepted :
    (register_agent
        (register_agent [] "agent_one".data "d1".data ["dup_tool".data])
        "agent_two".data "d2".data ["dup_tool".data]).length = 2
    ∧ ¬ (allToolNames (register_agent
        (register_agent [] "agent_one".data "d1".data ["dup_tool".data])
        "agent_two".data "d2".data ["dup_tool".data])).Nodup := by
  constructor
  · decide
  · decide

/-- C1 (amended).  `_register_agent` enforces no tool-name uniqueness:
every registration is accepted (the built `AgentInfo` always ends up in
the registry, replacing only an agent of the same agent name), so
duplicate tool names across agents are representable; the concrete
registry built by `_initialize_agents` from the eight shipped agents does
happen to have pairwise-distinct tool names. -/
theorem c1_registration_unchecked_actual_names_unique :
    (∀ (reg : List AgentInfo) (n d : Str) (tl : List Str),
        ({ name := n, description := d, toolNames := tl } : AgentInfo)
          ∈ register_agent reg n d tl)
    ∧ (allToolNames initializeAgents).Nodup := by
  constructor
  · intro reg n d tl
    unfold register_agent dictInsert
    by_cases h : reg.any (fun a =>
        a.name = ({ name := n, description := d, toolNames := tl } : AgentInfo).name) = true
    · rw [if_pos h]
      obtain ⟨a, ha, hname⟩ := List.any_eq_true.mp h
      refine List.mem_map.mpr ⟨a, ha, ?_⟩
      rw [if_pos (of_decide_eq_true hname)]
    · rw [if_neg h]
      exact List.mem_append_right _ (List.mem_singleton.mpr rfl)
  · decide

/-- C2 counterexample.  On the HTTP surface, executing an unregistered
tool name does not produce a `success:false` `ToolResponse`: the handler
raises `HTTPException(404, ...)` (re-raised by its own
`except HTTPException: raise` clause), so the dispatch ends in the raised
exception, not an error-flagged result envelope. -/
theorem c2_counterexample_http_unknown_tool_raises :
    http_execute_tool (fun _ _ _ => Except.ok []) initializeAgents
        "nonexistent_tool".data ()
      = Except.error
          { status_code := 404,
            detail := toolNotFoundMsg "nonexistent_tool".data } := by
  decide

/-- C2 (amended).  For a tool name owned by no registered agent: the MCP
`call_tool` dispatcher returns an `isError` result whose message contains
the tool name and never lets an exception escape, while the HTTP
`execute_tool` handler instead raises `HTTPException(404)` whose detail
contains the tool name (its `success:false` envelope is reserved for
non-`HTTPException` agent failures). -/
theorem c2_unknown_tool_error_result (α : Type)
    (exec : Str → Str → α → Except Str Str) (reg : List AgentInfo)
    (name : Str) (args : α) (h : ∀ a ∈ reg, name ∉ a.toolNames) :
    (call_tool exec reg name args).isError = true
    ∧ (∃ l r, (call_tool exec reg name args).text = l ++ name ++ r)
    ∧ http_execute_tool exec reg name args
        = Except.error { status_code := 404, detail := toolNotFoundMsg name }
    ∧ (∃ l r, toolNotFoundMsg name = l ++ name ++ r) := by
  have hfind : findAgent reg name = none := by
    unfold findAgent
    rw [List.find?_eq_none]
    intro a ha
    simpa using h a ha
  refine ⟨?_, ?_, ?_, ?_⟩
  · simp [call_tool, hfind]
  · refine ⟨"Tool ".data ++ [quoteChar], [quoteChar] ++ " not found".data, ?_⟩
    simp [call_tool, hfind, toolNotFoundMsg]
  · simp [http_execute_tool, hfind]
  · exact ⟨"Tool ".data ++ [quoteChar], [quoteChar] ++ " not found".data,
      by simp [toolNotFoundMsg]⟩

/-- Witness for C2 (amended) on the shipped registry and the name
`nonexistent_tool`. -/
theorem c2_unknown_tool_error_result_witness :
    (∀ a ∈ initializeAgents, "nonexistent_tool".data ∉ a.toolNames)
    ∧ (call_tool (fun _ _ _ => Except.ok []) initializeAgents
        "nonexistent_tool".data ()).isError = true :=
  ⟨by decide,
    (c2_unknown_tool_error_result Unit (fun _ _ _ => Except.ok [])
      initializeAgents "nonexistent_tool".data () (by decide)).1⟩

/-- C9.  When `clean_text` is invoked without `remove_urls` /
`remove_emails` arguments, the effective flags default to true — URLs and
email addresses are removed — even though the published input schema
declares both defaults as false; two end-to-end runs exhibit the removal. -/
theorem c9_clean_text_default_removes_urls_emails :
    (∀ args : CleanTextArgs, args.remove_urls = none →
        effective_remove_urls args = true)
    ∧ (∀ args : CleanTextArgs, args.remove_emails = none →
        effective_remove_emails args = true)
    ∧ clean_text_schema_remove_urls_default = false
    ∧ clean_text_schema_remove_emails_default = false
    ∧ clean_text 100000 { text := "visit http://abc.com now".data }
        = Except.ok "visit now".data
    ∧ clean_text 100000 { text := "mail bob@mail.com now".data }
        = Except.ok "mail now".data := by
  refine ⟨?_, ?_, rfl, rfl, by decide, by decide⟩
  · intro args hnone
    simp [effective_remove_urls, hnone]
  · intro args hnone
    simp [effective_remove_emails, hnone]

/-- Witness for C9 at an argument record with both options absent. -/
theorem c9_clean_text_default_removes_urls_emails_witness :
    effective_remove_urls { text := [] } = true
    ∧ effective_remove_emails { text := [] } = true :=
  ⟨c9_clean_text_default_removes_urls_emails.1 { text := [] } rfl,
   c9_clean_text_default_removes_urls_emails.2.1 { text := [] } rfl⟩

end AIMCP
